import Mathlib

/-!
Verification of the fisher repository (file encryption tool).

Shallow embedding of the core pipeline:

* `src/enum.rs`  — the `Fishers` cipher selector, its `encrypt_block` and
  `decrypt_block` dispatch, and the five-algorithm `generate_key`;
* `src/fish.rs`  — the `Fisher` struct, its `modify_file` transform engine
  (read loop, block transform, trailing-zero-stripping write loop), the
  Threefish-only `generate_key` variant, and `Fisher::new`.

External collaborators are abstract parameters, never reimplemented:

* the block cipher primitives of the `blowfish`, `twofish` and `threefish`
  crates appear as an `ExtCipher` record — a forward and an inverse block
  transform of a fixed width (the properties recorded are exactly the ones
  the spec ascribes to them: length preservation and
  `decrypt_block(encrypt_block(x)) = x`);
* the constructors `Blowfish::new`, `Twofish::new`, `Threefish*::new` of
  those crates appear as the fields of a `CipherLib` record;
* the `sha2` crate hash functions appear as the fields of a `HashFns`
  record;
* the filesystem queries used by the passphrase-as-file substitution
  (`PathBuf::is_file`, `File::open` + `read_to_string`) appear as a
  `FileSys` record, with read failure as an `Except.error` (the Io error).

Bytes are `List Nat`.  Rust panics (the length assertion in GenericArray
`clone_from_slice`, slice indexing) are modelled as `Option.none`; the
`FResult<T> = Result<T, Box<dyn Error>>` type is `Except String T`.  File
contents are passed in and returned as byte lists: `modify_file content`
returns the bytes the function writes back over the file.  The `path` and
`threads` fields of `Fisher` (tree walking and concurrency) are outside the
claims settled here and are omitted from the record.
-/

abbrev Bytes := List Nat

instance : DecidableEq (Except String Bool) := fun a b =>
  match a, b with
  | .ok x, .ok y => if h : x = y then .isTrue (by rw [h]) else .isFalse (by simp [h])
  | .error e, .error f => if h : e = f then .isTrue (by rw [h]) else .isFalse (by simp [h])
  | .ok _, .error _ => .isFalse (by simp)
  | .error _, .ok _ => .isFalse (by simp)

/-- An external block cipher instance (from the blowfish / twofish / threefish
crates): a keyed forward and inverse transform over blocks of a fixed width.
The three recorded properties are the ones the spec assumes of the external
library: both directions preserve the block width, and the inverse transform
undoes the forward one on every full block. -/
structure ExtCipher where
  width : Nat
  encrypt : Bytes → Bytes
  decrypt : Bytes → Bytes
  encrypt_len : ∀ b : Bytes, b.length = width → (encrypt b).length = width
  decrypt_len : ∀ b : Bytes, b.length = width → (decrypt b).length = width
  decrypt_encrypt : ∀ b : Bytes, b.length = width → decrypt (encrypt b) = b

/-- A trivial inhabitant of the cipher interface, used to run the embedded
code on concrete inputs. -/
def idCipher (w : Nat) : ExtCipher where
  width := w
  encrypt := fun b => b
  decrypt := fun b => b
  encrypt_len := fun _ h => h
  decrypt_len := fun _ h => h
  decrypt_encrypt := fun _ _ => rfl

/-- enum.rs: `pub(crate) enum Fishers` — the closed cipher selector.  Each
variant wraps the keyed external cipher instance it was built with.  (fish.rs
refers to the same enum under its alternate name `Threefisher`.) -/
inductive Fishers where
  | blowfish (c : ExtCipher)
  | twofish (c : ExtCipher)
  | threefish256 (c : ExtCipher)
  | threefish512 (c : ExtCipher)
  | threefish1024 (c : ExtCipher)

/-- The external cipher instance a `Fishers` value wraps. -/
def Fishers.cipher : Fishers → ExtCipher
  | .blowfish c => c
  | .twofish c => c
  | .threefish256 c => c
  | .threefish512 c => c
  | .threefish1024 c => c

/-- GenericArray `Block::<C>::clone_from_slice(&block)`: copies the slice into
a fixed-width block, panicking (`none`) when the length differs from the
cipher block width.  There is no error return at this point in the code. -/
def cloneFromSlice (w : Nat) (b : Bytes) : Option Bytes :=
  if b.length = w then some b else none

/-- enum.rs `Fishers::encrypt_block`: dispatch on the variant; each arm clones
the buffer into a cipher-width block (panicking on a length mismatch),
applies the external forward transform, writes the result back into the
buffer, and the function returns `Ok(true)`.  The value is
`none` for a panic, otherwise `some (written-back buffer, returned FResult)`. -/
def Fishers.encrypt_block (self : Fishers) (block : Bytes) :
    Option (Bytes × Except String Bool) :=
  match self with
  | .blowfish c => (cloneFromSlice c.width block).map fun bb => (c.encrypt bb, Except.ok true)
  | .twofish c => (cloneFromSlice c.width block).map fun bb => (c.encrypt bb, Except.ok true)
  | .threefish256 c => (cloneFromSlice c.width block).map fun bb => (c.encrypt bb, Except.ok true)
  | .threefish512 c => (cloneFromSlice c.width block).map fun bb => (c.encrypt bb, Except.ok true)
  | .threefish1024 c => (cloneFromSlice c.width block).map fun bb => (c.encrypt bb, Except.ok true)

/-- enum.rs `Fishers::decrypt_block`: same shape as `encrypt_block` with the
inverse transform. -/
def Fishers.decrypt_block (self : Fishers) (block : Bytes) :
    Option (Bytes × Except String Bool) :=
  match self with
  | .blowfish c => (cloneFromSlice c.width block).map fun bb => (c.decrypt bb, Except.ok true)
  | .twofish c => (cloneFromSlice c.width block).map fun bb => (c.decrypt bb, Except.ok true)
  | .threefish256 c => (cloneFromSlice c.width block).map fun bb => (c.decrypt bb, Except.ok true)
  | .threefish512 c => (cloneFromSlice c.width block).map fun bb => (c.decrypt bb, Except.ok true)
  | .threefish1024 c => (cloneFromSlice c.width block).map fun bb => (c.decrypt bb, Except.ok true)

/-- fish.rs `pub(crate) struct Fisher` (the `path` and `threads` fields —
traversal targets and the spawned-thread registry — are not part of the block
pipeline and are omitted). -/
structure Fisher where
  block_size : Nat
  crypt : Bool
  fisher : Fishers

/-- The read loop of `Fisher::modify_file`: repeatedly fill a zeroed buffer of
`block_size` bytes from the file.  A read of zero bytes (end of file, or a
zero-sized buffer) breaks the loop without producing a block; a final short
read leaves the buffer's zero initialisation in place past the bytes read,
i.e. the last partial chunk is zero-padded to the block size. -/
def readBlocks (block_size : Nat) (l : Bytes) : List Bytes :=
  if h : l = [] ∨ block_size = 0 then []
  else (l.take block_size ++ List.replicate (block_size - l.length) 0)
    :: readBlocks block_size (l.drop block_size)
termination_by l.length
decreasing_by
  push_neg at h
  simp only [List.length_drop]
  exact Nat.sub_lt (List.length_pos.mpr h.1) (Nat.pos_of_ne_zero h.2)

/-- The read-and-transform loop of `Fisher::modify_file`: per chunk, run
`encrypt_block` (crypt = true) or `decrypt_block` (crypt = false); `Ok(true)`
pushes the modified block, `Ok(false)` returns the
"Failed to encrypt or decrypt block" error, `Err` propagates via `?`, and a
panic inside the block transform aborts the function (`none`). -/
def readTransformLoop (self : Fisher) (l : Bytes) : Option (Except String (List Bytes)) :=
  if h : l = [] ∨ self.block_size = 0 then some (Except.ok [])
  else
    let buffer := l.take self.block_size ++ List.replicate (self.block_size - l.length) 0
    match (if self.crypt then self.fisher.encrypt_block buffer
           else self.fisher.decrypt_block buffer) with
    | none => none
    | some (block, Except.ok true) =>
      match readTransformLoop self (l.drop self.block_size) with
      | none => none
      | some (Except.ok rest) => some (Except.ok (block :: rest))
      | some (Except.error e) => some (Except.error e)
    | some (_, Except.ok false) => some (Except.error "Failed to encrypt or decrypt block")
    | some (_, Except.error e) => some (Except.error e)
termination_by l.length
decreasing_by
  push_neg at h
  simp only [List.length_drop]
  exact Nat.sub_lt (List.length_pos.mpr h.1) (Nat.pos_of_ne_zero h.2)

/-- The padding scan in the write phase of `modify_file`: walk the block from
its end backwards, counting consecutive zero bytes. -/
def countTrailingZeros (block : Bytes) : Nat :=
  (block.reverse.takeWhile (fun b => b == 0)).length

/-- The truncation in the write phase of `modify_file`:
`&block[..block.len() - padding]`. -/
def stripPadding (block : Bytes) : Bytes :=
  block.take (block.length - countTrailingZeros block)

/-- The write loop of `modify_file`: each block is compared BY VALUE with
`modified_blocks.last().unwrap()`; on a match the block is stripped of its
trailing zero run, written, and the loop breaks; otherwise the block is
written verbatim. -/
def writeLoop (lastBlock : Bytes) : List Bytes → Bytes
  | [] => []
  | b :: bs => if b = lastBlock then stripPadding b else b ++ writeLoop lastBlock bs

/-- The write phase of `modify_file` over the collected transformed blocks.
With no blocks the loop body (and its `last().unwrap()`) never runs and
nothing is written. -/
def writeBlocks (blocks : List Bytes) : Bytes :=
  match blocks.getLast? with
  | none => []
  | some lastBlock => writeLoop lastBlock blocks

/-- fish.rs `Fisher::modify_file` on the content of one file: read and
transform the chunks, then rewrite the file (truncating) with the write
loop's output.  `none` models a panic, `some (Except.error e)` an error
return, `some (Except.ok out)` success with `out` the bytes written. -/
def Fisher.modify_file (self : Fisher) (content : Bytes) : Option (Except String Bytes) :=
  match readTransformLoop self content with
  | none => none
  | some (Except.error e) => some (Except.error e)
  | some (Except.ok blocks) => some (Except.ok (writeBlocks blocks))

/-- Modelled from the spec (§4.3 step 4), for comparison with `writeBlocks`:
"Write every transformed block except the last verbatim.  For the last block,
strip trailing zero bytes … and write only the truncated prefix."  This is the
write policy the spec states, keyed on file position, not the value-equality
test the code performs. -/
def writeBlocksSpec (blocks : List Bytes) : Bytes :=
  match blocks.getLast? with
  | none => []
  | some lastBlock => blocks.dropLast.flatten ++ stripPadding lastBlock

/-- The hash functions of the external sha2 crate (`Sha512`, `Sha256`:
update with the input bytes, finalize to a digest). -/
structure HashFns where
  sha256 : Bytes → Bytes
  sha512 : Bytes → Bytes

/-- The filesystem operations used by the passphrase-as-file substitution:
`PathBuf::from(&passphrase).is_file()` and `File::open` followed by
`read_to_string` (any failure of the open or the read is the `Except.error`
case — an Io error). -/
structure FileSys where
  isFile : Bytes → Bool
  readToString : Bytes → Except String Bytes

/-- The keyed-cipher constructors of the external crates
(`Blowfish::new`, `Twofish::new`, `Threefish256::new`, `Threefish512::new`,
`Threefish1024::new`), each taking the key material. -/
structure CipherLib where
  blowfishNew : Bytes → ExtCipher
  twofishNew : Bytes → ExtCipher
  threefish256New : Bytes → ExtCipher
  threefish512New : Bytes → ExtCipher
  threefish1024New : Bytes → ExtCipher

/-- The shared head of both `generate_key` functions: if the passphrase names
an existing regular file, the file's full contents replace the passphrase
before any hashing; otherwise the literal string is used. -/
def resolvePassphrase (fs : FileSys) (passphrase : Bytes) : Except String Bytes :=
  if fs.isFile passphrase then fs.readToString passphrase else Except.ok passphrase

/-- GenericArray `Key::<C>::from_slice`: panics (`none`) unless the slice
length equals the cipher's key size. -/
def keyFromSlice (keySize : Nat) (b : Bytes) : Option Bytes :=
  if b.length = keySize then some b else none

/-- Rust `arr[start..stop].clone_from_slice(vals)` on a byte array: panics
(`none`) unless `vals` has exactly the length of the range. -/
def cloneIntoRange (arr : Bytes) (start stop : Nat) (vals : Bytes) : Option Bytes :=
  if vals.length = stop - start then some (arr.take start ++ vals ++ arr.drop stop) else none

/-- The algorithm dispatch of enum.rs `generate_key` after the passphrase
substitution (`match alg { 0 => …, 1 => …, 2 => match block_size { … } }`).
Alg 0 (Blowfish): truncate the 512-bit digest to its first 56 bytes.
Alg 1 (Twofish): the full 256-bit digest.
Alg 2 (Threefish): per block size 32 / 64 / 128; the 128 arm writes the
512-bit digest and the digest of that digest into the two halves of a zeroed
128-byte array; any other size is the "Invalid block size" error.  Any other
alg is the "Invalid algorithm" error. -/
def generate_key_body (H : HashFns) (lib : CipherLib) (alg : Nat) (block_size : Nat)
    (passphrase : Bytes) : Option (Except String Fishers) :=
  if alg = 0 then
    (keyFromSlice 56 ((H.sha512 passphrase).take 56)).map fun k =>
      Except.ok (Fishers.blowfish (lib.blowfishNew k))
  else if alg = 1 then
    (keyFromSlice 32 (H.sha256 passphrase)).map fun k =>
      Except.ok (Fishers.twofish (lib.twofishNew k))
  else if alg = 2 then
    if block_size = 32 then
      (keyFromSlice 32 (H.sha256 passphrase)).map fun k =>
        Except.ok (Fishers.threefish256 (lib.threefish256New k))
    else if block_size = 64 then
      (keyFromSlice 64 (H.sha512 passphrase)).map fun k =>
        Except.ok (Fishers.threefish512 (lib.threefish512New k))
    else if block_size = 128 then
      match cloneIntoRange (List.replicate 128 0) 0 64 (H.sha512 passphrase) with
      | none => none
      | some combined =>
        match cloneIntoRange combined 64 128 (H.sha512 (H.sha512 passphrase)) with
        | none => none
        | some combined_hash =>
          (keyFromSlice 128 combined_hash).map fun k =>
            Except.ok (Fishers.threefish1024 (lib.threefish1024New k))
    else some (Except.error "Invalid block size")
  else some (Except.error "Invalid algorithm")

/-- enum.rs `generate_key(alg, block_size, passphrase)`: passphrase-as-file
substitution, then the algorithm dispatch. -/
def generate_key (fs : FileSys) (H : HashFns) (lib : CipherLib) (alg : Nat)
    (block_size : Nat) (passphrase : Bytes) : Option (Except String Fishers) :=
  match resolvePassphrase fs passphrase with
  | Except.error e => some (Except.error e)
  | Except.ok passphrase => generate_key_body H lib alg block_size passphrase

/-- The Threefish-only dispatch of fish.rs `generate_key` after the passphrase
substitution: block sizes 32 / 64 / 128, identical arms to the alg 2 case of
enum.rs, any other size the "Invalid block size" error. -/
def fish_generate_key_body (H : HashFns) (lib : CipherLib) (block_size : Nat)
    (passphrase : Bytes) : Option (Except String Fishers) :=
  if block_size = 32 then
    (keyFromSlice 32 (H.sha256 passphrase)).map fun k =>
      Except.ok (Fishers.threefish256 (lib.threefish256New k))
  else if block_size = 64 then
    (keyFromSlice 64 (H.sha512 passphrase)).map fun k =>
      Except.ok (Fishers.threefish512 (lib.threefish512New k))
  else if block_size = 128 then
    match cloneIntoRange (List.replicate 128 0) 0 64 (H.sha512 passphrase) with
    | none => none
    | some combined =>
      match cloneIntoRange combined 64 128 (H.sha512 (H.sha512 passphrase)) with
      | none => none
      | some combined_hash =>
        (keyFromSlice 128 combined_hash).map fun k =>
          Except.ok (Fishers.threefish1024 (lib.threefish1024New k))
  else some (Except.error "Invalid block size")

/-- fish.rs `generate_key(block_size, passphrase)` (the Threefish-only
variant defined next to `Fisher`). -/
def fish_generate_key (fs : FileSys) (H : HashFns) (lib : CipherLib)
    (block_size : Nat) (passphrase : Bytes) : Option (Except String Fishers) :=
  match resolvePassphrase fs passphrase with
  | Except.error e => some (Except.error e)
  | Except.ok passphrase => fish_generate_key_body H lib block_size passphrase

/-- fish.rs `Fisher::new(crypt, path, passphrase, block_size)`: derive the key
(propagating its error with `?`) and build the instance.  The `path` argument
and the empty thread registry are omitted with the corresponding fields. -/
def Fisher.new (fs : FileSys) (H : HashFns) (lib : CipherLib) (crypt : Bool)
    (passphrase : Bytes) (block_size : Nat) : Option (Except String Fisher) :=
  match fish_generate_key fs H lib block_size passphrase with
  | none => none
  | some (Except.error e) => some (Except.error e)
  | some (Except.ok f) => some (Except.ok (Fisher.mk block_size crypt f))

/-! Facts about the trailing-zero scan and truncation. -/

theorem takeWhile_length_le (p : Nat → Bool) (l : Bytes) :
    (l.takeWhile p).length ≤ l.length := by
  induction l with
  | nil => simp
  | cons a l ih =>
    rw [List.takeWhile_cons]
    split
    · simpa using ih
    · simp

theorem ctz_le (l : Bytes) : countTrailingZeros l ≤ l.length := by
  have h := takeWhile_length_le (fun b => b == 0) l.reverse
  simpa [countTrailingZeros] using h

theorem ctz_concat_zero (m : Bytes) :
    countTrailingZeros (m ++ [0]) = countTrailingZeros m + 1 := by
  simp [countTrailingZeros, List.reverse_append, List.takeWhile_cons]

theorem ctz_concat_ne (m : Bytes) (a : Nat) (ha : a ≠ 0) :
    countTrailingZeros (m ++ [a]) = 0 := by
  simp [countTrailingZeros, List.reverse_append, List.takeWhile_cons, ha]

theorem strip_concat_zero (m : Bytes) : stripPadding (m ++ [0]) = stripPadding m := by
  unfold stripPadding
  rw [ctz_concat_zero]
  have h1 : (m ++ [0]).length - (countTrailingZeros m + 1) = m.length - countTrailingZeros m := by
    simp
  rw [h1]
  exact List.take_append_of_le_length (by omega)

theorem strip_concat_ne (m : Bytes) (a : Nat) (ha : a ≠ 0) :
    stripPadding (m ++ [a]) = m ++ [a] := by
  unfold stripPadding
  rw [ctz_concat_ne m a ha]
  simp

theorem strip_append_replicate (l : Bytes) :
    l = stripPadding l ++ List.replicate (countTrailingZeros l) 0 := by
  induction l using List.reverseRecOn with
  | nil => rfl
  | append_singleton m a ih =>
    by_cases ha : a = 0
    · subst ha
      rw [strip_concat_zero, ctz_concat_zero, List.replicate_succ']
      conv_lhs => rw [ih]
      simp
    · rw [strip_concat_ne m a ha, ctz_concat_ne m a ha]
      simp

theorem strip_append_zeros (l : Bytes) (k : Nat) :
    stripPadding (l ++ List.replicate k 0) = stripPadding l := by
  induction k with
  | zero => simp
  | succ k ih =>
    rw [List.replicate_succ', ← List.append_assoc, strip_concat_zero, ih]

theorem strip_length (l : Bytes) :
    (stripPadding l).length = l.length - countTrailingZeros l := by
  unfold stripPadding
  simp

theorem strip_ne_nil (b : Bytes) (hb : b ≠ List.replicate b.length 0) : stripPadding b ≠ [] := by
  intro h
  apply hb
  have h2 := strip_append_replicate b
  rw [h] at h2
  simp at h2
  have h3 : b.length = countTrailingZeros b := by
    conv_lhs => rw [h2]
    simp
  rw [h3]
  exact h2

theorem strip_of_getLast_ne_zero (l : Bytes) (hl : l ≠ []) (hlast : l.getLast? ≠ some 0) :
    stripPadding l = l := by
  rcases l.eq_nil_or_concat with h | ⟨m, a, h⟩
  · exact absurd h hl
  · rw [List.concat_eq_append] at h
    subst h
    apply strip_concat_ne
    intro ha
    subst ha
    exact hlast (List.getLast?_concat m)

/-! Facts about the read loop. -/

theorem readBlocks_nil (w : Nat) : readBlocks w [] = [] := by
  rw [readBlocks]
  simp

theorem readBlocks_zero_width (l : Bytes) : readBlocks 0 l = [] := by
  rw [readBlocks]
  simp

theorem readBlocks_unfold (w : Nat) (l : Bytes) (hl : l ≠ []) (hw : w ≠ 0) :
    readBlocks w l =
      (l.take w ++ List.replicate (w - l.length) 0) :: readBlocks w (l.drop w) := by
  rw [readBlocks]
  simp [hl, hw]

theorem readBlocks_ne_nil (w : Nat) (l : Bytes) (hl : l ≠ []) (hw : w ≠ 0) :
    readBlocks w l ≠ [] := by
  rw [readBlocks_unfold w l hl hw]
  simp

theorem pad_length (w : Nat) (l : Bytes) (hl : l ≠ []) :
    (l.take w ++ List.replicate (w - l.length) 0).length = w := by
  have h0 : 0 < l.length := List.length_pos.mpr hl
  simp only [List.length_append, List.length_take, List.length_replicate]
  omega

theorem readBlocks_mem_length (w : Nat) (l : Bytes) : ∀ b ∈ readBlocks w l, b.length = w := by
  generalize hn : l.length = n
  induction n using Nat.strong_induction_on generalizing l with
  | _ n ih =>
  subst hn
  by_cases hl : l = []
  · subst hl
    simp [readBlocks_nil]
  by_cases hw : w = 0
  · subst hw
    simp [readBlocks_zero_width]
  rw [readBlocks_unfold w l hl hw]
  intro b hb
  rcases List.mem_cons.mp hb with rfl | hb
  · exact pad_length w l hl
  · refine ih (l.drop w).length ?_ (l.drop w) rfl b hb
    simp only [List.length_drop]
    exact Nat.sub_lt (List.length_pos.mpr hl) (Nat.pos_of_ne_zero hw)

theorem readBlocks_flatten_append (w : Nat) (hw : w ≠ 0) (L : List Bytes) (s : Bytes)
    (hL : ∀ b ∈ L, b.length = w) (hs : s ≠ []) (hsw : s.length ≤ w) :
    readBlocks w (L.flatten ++ s) = L ++ [s ++ List.replicate (w - s.length) 0] := by
  induction L with
  | nil =>
    simp only [List.flatten_nil, List.nil_append]
    rw [readBlocks_unfold w s hs hw, List.take_of_length_le hsw,
      List.drop_eq_nil_of_le hsw, readBlocks_nil]
  | cons b L ihL =>
    have hb : b.length = w := hL b (by simp)
    have hbne : b ≠ [] := by
      intro h
      rw [h] at hb
      exact hw hb.symm
    have hflat : ((b :: L).flatten ++ s) = b ++ (L.flatten ++ s) := by simp
    have hne : b ++ (L.flatten ++ s) ≠ [] := by
      simp [hbne]
    rw [hflat, readBlocks_unfold w _ hne hw]
    have htake : (b ++ (L.flatten ++ s)).take w = b := by
      rw [List.take_append_of_le_length (le_of_eq hb.symm), ← hb, List.take_length]
    have hdrop : (b ++ (L.flatten ++ s)).drop w = L.flatten ++ s := by
      rw [List.drop_append_of_le_length (le_of_eq hb.symm), ← hb, List.drop_length,
        List.nil_append]
    have hrep : List.replicate (w - (b ++ (L.flatten ++ s)).length) 0 = ([] : Bytes) := by
      have hz : w - (b ++ (L.flatten ++ s)).length = 0 := by
        simp only [List.length_append]
        omega
      rw [hz]
      rfl
    rw [htake, hdrop, hrep, List.append_nil, ihL (fun x hx => hL x (by simp [hx]))]
    simp

theorem readBlocks_reconstruct (w : Nat) (hw : w ≠ 0) (l : Bytes) :
    l ≠ [] → l.getLast? ≠ some 0 →
    ∀ lastB, (readBlocks w l).getLast? = some lastB →
    (readBlocks w l).dropLast.flatten ++ stripPadding lastB = l := by
  generalize hn : l.length = n
  induction n using Nat.strong_induction_on generalizing l with
  | _ n ih =>
  intro hl hlast lastB hlB
  subst hn
  by_cases hsmall : l.length ≤ w
  · have hdrop : l.drop w = [] := List.drop_eq_nil_of_le hsmall
    rw [readBlocks_unfold w l hl hw, hdrop, readBlocks_nil] at hlB ⊢
    simp only [List.getLast?_singleton, Option.some.injEq] at hlB
    subst hlB
    simp only [List.dropLast_single, List.flatten_nil, List.nil_append]
    rw [List.take_of_length_le hsmall, strip_append_zeros, strip_of_getLast_ne_zero l hl hlast]
  · push_neg at hsmall
    have hld : l.drop w ≠ [] := by
      rw [Ne, List.drop_eq_nil_iff]
      omega
    have hB' : readBlocks w (l.drop w) ≠ [] := readBlocks_ne_nil w (l.drop w) hld hw
    rw [readBlocks_unfold w l hl hw] at hlB ⊢
    have hpad : l.take w ++ List.replicate (w - l.length) 0 = l.take w := by
      have : w - l.length = 0 := by omega
      simp [this]
    rw [hpad] at hlB ⊢
    obtain ⟨y, ys, hys⟩ := List.exists_cons_of_ne_nil hB'
    rw [hys] at hlB ⊢
    rw [List.getLast?_cons_cons] at hlB
    rw [List.dropLast_cons₂]
    have hlast' : (l.drop w).getLast? = l.getLast? := by
      conv_rhs => rw [← List.take_append_drop w l]
      rw [List.getLast?_append_of_ne_nil _ hld]
    have hrec := ih (l.drop w).length
      (by
        simp only [List.length_drop]
        exact Nat.sub_lt (by omega) (Nat.pos_of_ne_zero hw))
      (l.drop w) rfl hld (hlast' ▸ hlast) lastB (by rw [hys]; exact hlB)
    rw [hys] at hrec
    rw [List.flatten_cons, List.append_assoc, hrec]
    exact List.take_append_drop w l

/-! Facts about the write loop. -/

theorem writeLoop_concat (lastB : Bytes) (M : List Bytes) (hM : ∀ b ∈ M, b ≠ lastB) :
    writeLoop lastB (M ++ [lastB]) = M.flatten ++ stripPadding lastB := by
  induction M with
  | nil => simp [writeLoop]
  | cons b M ihM =>
    have hb : b ≠ lastB := hM b (by simp)
    simp only [List.cons_append, writeLoop, if_neg hb, List.append_eq]
    rw [ihM (fun x hx => hM x (by simp [hx]))]
    simp

theorem writeBlocks_concat (lastB : Bytes) (M : List Bytes) (hM : ∀ b ∈ M, b ≠ lastB) :
    writeBlocks (M ++ [lastB]) = M.flatten ++ stripPadding lastB := by
  unfold writeBlocks
  rw [List.getLast?_concat]
  exact writeLoop_concat lastB M hM

theorem dropLast_map (f : Bytes → Bytes) (L : List Bytes) :
    (L.map f).dropLast = L.dropLast.map f := by
  induction L with
  | nil => rfl
  | cons a L ih =>
    cases L with
    | nil => rfl
    | cons b L => simp_all

theorem getLast?_map (f : Bytes → Bytes) (L : List Bytes) :
    (L.map f).getLast? = L.getLast?.map f := by
  induction L with
  | nil => rfl
  | cons a L ih =>
    cases L with
    | nil => rfl
    | cons b L => simp_all

/-! The block transforms never fail: every arm of both dispatches ends in
`Ok(true)`, and the only other possibility is the length-mismatch panic. -/

theorem encrypt_block_ok (fi : Fishers) (b : Bytes) (hb : b.length = fi.cipher.width) :
    fi.encrypt_block b = some (fi.cipher.encrypt b, Except.ok true) := by
  cases fi <;>
    simp only [Fishers.cipher] at hb <;>
    simp [Fishers.encrypt_block, Fishers.cipher, cloneFromSlice, hb]

theorem decrypt_block_ok (fi : Fishers) (b : Bytes) (hb : b.length = fi.cipher.width) :
    fi.decrypt_block b = some (fi.cipher.decrypt b, Except.ok true) := by
  cases fi <;>
    simp only [Fishers.cipher] at hb <;>
    simp [Fishers.decrypt_block, Fishers.cipher, cloneFromSlice, hb]

theorem encrypt_block_panic (fi : Fishers) (b : Bytes) (hb : b.length ≠ fi.cipher.width) :
    fi.encrypt_block b = none := by
  cases fi <;>
    simp only [Fishers.cipher] at hb <;>
    simp [Fishers.encrypt_block, cloneFromSlice, hb]

theorem decrypt_block_panic (fi : Fishers) (b : Bytes) (hb : b.length ≠ fi.cipher.width) :
    fi.decrypt_block b = none := by
  cases fi <;>
    simp only [Fishers.cipher] at hb <;>
    simp [Fishers.decrypt_block, cloneFromSlice, hb]

/-- When the configured block size equals the cipher width (as every
constructed `Fisher` guarantees), the read-and-transform loop is the pure
chunking followed by the pure block map, wrapped in `Ok`: the "Failed to
encrypt or decrypt block" branch and the panic are unreachable. -/
theorem readTransformLoop_ok (self : Fisher)
    (hwf : self.block_size = self.fisher.cipher.width) (l : Bytes) :
    readTransformLoop self l = some (Except.ok ((readBlocks self.block_size l).map
      (fun b => if self.crypt then self.fisher.cipher.encrypt b
                else self.fisher.cipher.decrypt b))) := by
  generalize hn : l.length = n
  induction n using Nat.strong_induction_on generalizing l with
  | _ n ih =>
  subst hn
  by_cases h : l = [] ∨ self.block_size = 0
  · rw [readTransformLoop, dif_pos h]
    rcases h with h | h
    · subst h
      rw [readBlocks_nil]
      rfl
    · rw [h, readBlocks_zero_width]
      rfl
  · have h' := h
    push_neg at h'
    have hbuf : (l.take self.block_size ++
        List.replicate (self.block_size - l.length) 0).length = self.fisher.cipher.width := by
      rw [← hwf]
      exact pad_length _ l h'.1
    rw [readTransformLoop, dif_neg h]
    rw [readBlocks_unfold _ l h'.1 h'.2]
    have hrec := ih (l.drop self.block_size).length
      (by
        simp only [List.length_drop]
        exact Nat.sub_lt (List.length_pos.mpr h'.1) (Nat.pos_of_ne_zero h'.2))
      (l.drop self.block_size) rfl
    cases hc : self.crypt
    · simp only [hc, if_false, Bool.false_eq_true]
      rw [decrypt_block_ok _ _ hbuf, hrec]
      simp [hc]
    · simp only [hc, if_true]
      rw [encrypt_block_ok _ _ hbuf, hrec]
      simp [hc]

/-- `modify_file` under the constructed block-size/cipher-width agreement:
always succeeds, writing the write-phase output of the transformed chunks. -/
theorem modify_file_ok (self : Fisher)
    (hwf : self.block_size = self.fisher.cipher.width) (l : Bytes) :
    self.modify_file l = some (Except.ok (writeBlocks ((readBlocks self.block_size l).map
      (fun b => if self.crypt then self.fisher.cipher.encrypt b
                else self.fisher.cipher.decrypt b)))) := by
  unfold Fisher.modify_file
  rw [readTransformLoop_ok self hwf l]

/-! Arithmetic shape of the chunking, for the read-phase claim. -/

theorem sub_mod_self_mod (a w : Nat) (h : w ≤ a) : (a - w) % w = a % w := by
  obtain ⟨k, hk⟩ := Nat.exists_eq_add_of_le h
  subst hk
  simp [Nat.add_sub_cancel_left, Nat.add_mod_left]

theorem readBlocks_flatten_pad (w : Nat) (hw : w ≠ 0) (l : Bytes) :
    (readBlocks w l).flatten = l ++ List.replicate ((w - l.length % w) % w) 0 := by
  generalize hn : l.length = n
  induction n using Nat.strong_induction_on generalizing l with
  | _ n ih =>
  subst hn
  by_cases hl : l = []
  · subst hl
    simp [readBlocks_nil, Nat.mod_self]
  rw [readBlocks_unfold w l hl hw, List.flatten_cons]
  by_cases hsmall : l.length ≤ w
  · rw [List.drop_eq_nil_of_le hsmall, readBlocks_nil]
    simp only [List.flatten_nil, List.append_nil]
    rw [List.take_of_length_le hsmall]
    have hpos : 0 < l.length := List.length_pos.mpr hl
    have hcount : (w - l.length % w) % w = w - l.length := by
      rcases Nat.lt_or_ge l.length w with hlt | hge
      · rw [Nat.mod_eq_of_lt hlt, Nat.mod_eq_of_lt (by omega)]
      · have hlw : l.length = w := le_antisymm hsmall hge
        rw [hlw]
        simp [Nat.mod_self]
    rw [hcount]
  · push_neg at hsmall
    have hrec := ih (l.drop w).length
      (by
        simp only [List.length_drop]
        exact Nat.sub_lt (by omega) (Nat.pos_of_ne_zero hw))
      (l.drop w) rfl
    rw [hrec]
    have hz : w - l.length = 0 := by omega
    rw [hz]
    simp only [List.replicate_zero, List.append_nil, List.length_drop]
    rw [sub_mod_self_mod l.length w (le_of_lt hsmall), ← List.append_assoc,
      List.take_append_drop]

theorem readBlocks_length_exact (w : Nat) (hw : w ≠ 0) (l : Bytes)
    (hmul : l.length % w = 0) : (readBlocks w l).length = l.length / w := by
  generalize hn : l.length = n
  induction n using Nat.strong_induction_on generalizing l with
  | _ n ih =>
  subst hn
  by_cases hl : l = []
  · subst hl
    simp [readBlocks_nil]
  have hpos : 0 < l.length := List.length_pos.mpr hl
  have hge : w ≤ l.length := by
    by_contra hlt
    push_neg at hlt
    rw [Nat.mod_eq_of_lt hlt] at hmul
    omega
  rw [readBlocks_unfold w l hl hw, List.length_cons]
  have hmul' : (l.drop w).length % w = 0 := by
    simp only [List.length_drop]
    rw [sub_mod_self_mod l.length w hge]
    exact hmul
  have hrec := ih (l.drop w).length
    (by
      simp only [List.length_drop]
      exact Nat.sub_lt hpos (Nat.pos_of_ne_zero hw))
    (l.drop w) hmul' rfl
  rw [hrec]
  simp only [List.length_drop]
  rw [Nat.div_eq_sub_div (Nat.pos_of_ne_zero hw) hge]

/-- Core round trip of the pure pipeline, for any cipher satisfying the
external-library interface: chunk, encrypt, write; then chunk, decrypt, write
the result.  Requires: the plaintext does not end in a zero byte, no
transformed block before the last equals the last one (otherwise the write
loop's value-equality test fires early and drops blocks), and the last
transformed block is not all zeros (otherwise the write loop drops it whole). -/
theorem pure_round_trip (c : ExtCipher) (hw : c.width ≠ 0) (C : Bytes)
    (hlast : C.getLast? ≠ some 0)
    (hdup : ∀ b ∈ ((readBlocks c.width C).map c.encrypt).dropLast,
      some b ≠ ((readBlocks c.width C).map c.encrypt).getLast?)
    (hzero : ((readBlocks c.width C).map c.encrypt).getLast? ≠
      some (List.replicate c.width 0)) :
    writeBlocks ((readBlocks c.width
      (writeBlocks ((readBlocks c.width C).map c.encrypt))).map c.decrypt) = C := by
  by_cases hC : C = []
  · subst hC
    simp [readBlocks_nil, writeBlocks]
  have hB : readBlocks c.width C ≠ [] := readBlocks_ne_nil _ C hC hw
  have hlens := readBlocks_mem_length c.width C
  have hBsplit : (readBlocks c.width C).dropLast ++ [(readBlocks c.width C).getLast hB] =
      readBlocks c.width C := List.dropLast_append_getLast hB
  obtain ⟨M, lastB, hMB, hMmem, hlastlen⟩ :
      ∃ M lastB, readBlocks c.width C = M ++ [lastB] ∧ (∀ b ∈ M, b.length = c.width) ∧
        lastB.length = c.width := by
    refine ⟨(readBlocks c.width C).dropLast, (readBlocks c.width C).getLast hB,
      hBsplit.symm, ?_, ?_⟩
    · intro b hb
      exact hlens b (hBsplit ▸ List.mem_append_left _ hb)
    · exact hlens _ (List.getLast_mem hB)
  have hmapB : (readBlocks c.width C).map c.encrypt =
      M.map c.encrypt ++ [c.encrypt lastB] := by
    rw [hMB, List.map_append]
    rfl
  have hdup' : ∀ b ∈ M.map c.encrypt, b ≠ c.encrypt lastB := by
    intro b hb heq
    have hbd : b ∈ ((readBlocks c.width C).map c.encrypt).dropLast := by
      rw [hmapB, List.dropLast_concat]
      exact hb
    have hgl : ((readBlocks c.width C).map c.encrypt).getLast? = some (c.encrypt lastB) := by
      rw [hmapB, List.getLast?_concat]
    exact hdup b hbd (by rw [hgl, heq])
  have hwB : writeBlocks ((readBlocks c.width C).map c.encrypt) =
      (M.map c.encrypt).flatten ++ stripPadding (c.encrypt lastB) := by
    rw [hmapB]
    exact writeBlocks_concat _ _ hdup'
  have henclen : (c.encrypt lastB).length = c.width := c.encrypt_len lastB hlastlen
  have hzero' : c.encrypt lastB ≠ List.replicate c.width 0 := by
    intro h
    apply hzero
    rw [hmapB, List.getLast?_concat, h]
  have hsne : stripPadding (c.encrypt lastB) ≠ [] := by
    apply strip_ne_nil
    rw [henclen]
    exact hzero'
  have hslen : (stripPadding (c.encrypt lastB)).length ≤ c.width := by
    rw [strip_length, henclen]
    omega
  have hMenc_len : ∀ b ∈ M.map c.encrypt, b.length = c.width := by
    intro b hb
    obtain ⟨b0, hb0, rfl⟩ := List.mem_map.mp hb
    exact c.encrypt_len b0 (hMmem b0 hb0)
  have hreadD : readBlocks c.width
      ((M.map c.encrypt).flatten ++ stripPadding (c.encrypt lastB)) =
      M.map c.encrypt ++ [stripPadding (c.encrypt lastB) ++
        List.replicate (c.width - (stripPadding (c.encrypt lastB)).length) 0] :=
    readBlocks_flatten_append c.width hw _ _ hMenc_len hsne hslen
  have hpadfill : stripPadding (c.encrypt lastB) ++
      List.replicate (c.width - (stripPadding (c.encrypt lastB)).length) 0 =
      c.encrypt lastB := by
    have hctzle : countTrailingZeros (c.encrypt lastB) ≤ c.width := by
      have h1 := ctz_le (c.encrypt lastB)
      omega
    have harith : c.width - (stripPadding (c.encrypt lastB)).length =
        countTrailingZeros (c.encrypt lastB) := by
      rw [strip_length, henclen]
      omega
    rw [harith]
    exact (strip_append_replicate (c.encrypt lastB)).symm
  rw [hwB, hreadD, hpadfill]
  have hdecmap : (M.map c.encrypt ++ [c.encrypt lastB]).map c.decrypt = M ++ [lastB] := by
    rw [List.map_append, List.map_map]
    congr 1
    · have hpt : ∀ b ∈ M, (c.decrypt ∘ c.encrypt) b = id b := fun b hb => by
        simp [Function.comp, c.decrypt_encrypt b (hMmem b hb)]
      rw [List.map_congr_left hpt, List.map_id]
    · simp [c.decrypt_encrypt lastB hlastlen]
  rw [hdecmap]
  have hMdup : ∀ b ∈ M, b ≠ lastB := by
    intro b hb heq
    exact hdup' (c.encrypt b) (List.mem_map_of_mem _ hb) (by rw [heq])
  rw [writeBlocks_concat _ _ hMdup]
  have hgl2 : (readBlocks c.width C).getLast? = some lastB := by
    rw [hMB, List.getLast?_concat]
  have hdl : (readBlocks c.width C).dropLast = M := by
    rw [hMB, List.dropLast_concat]
  have hfin := readBlocks_reconstruct c.width hw C hC hlast lastB hgl2
  rw [hdl] at hfin
  exact hfin

/-! Concrete instantiations of the external collaborators, used to run the
embedded code on concrete inputs. -/

/-- A filesystem in which no path names a file: every passphrase is literal. -/
def noFileFS : FileSys where
  isFile := fun _ => false
  readToString := fun _ => Except.error "io"

/-- A filesystem with exactly one regular file, at path byte [7], whose
contents are the byte [42]. -/
def oneFileFS : FileSys where
  isFile := fun p => p == [7]
  readToString := fun p => if p == [7] then Except.ok [42] else Except.error "io"

/-- Hash functions returning fixed digests of the correct lengths. -/
def constHash : HashFns where
  sha256 := fun _ => List.replicate 32 1
  sha512 := fun _ => List.replicate 64 1

/-- Cipher constructors returning the identity-interface cipher of each
family's block width. -/
def constLib : CipherLib where
  blowfishNew := fun _ => idCipher 8
  twofishNew := fun _ => idCipher 16
  threefish256New := fun _ => idCipher 32
  threefish512New := fun _ => idCipher 64
  threefish1024New := fun _ => idCipher 128

/-- Unconditional unfolding of the read loop at width 8, for concrete runs. -/
theorem readBlocks_eight_cons (a : Nat) (l : Bytes) :
    readBlocks 8 (a :: l) =
      ((a :: l).take 8 ++ List.replicate (8 - (a :: l).length) 0)
        :: readBlocks 8 ((a :: l).drop 8) :=
  readBlocks_unfold 8 (a :: l) (by simp) (by simp)

/-- C2: the claim states that in the write phase every transformed block
except the positionally-last is written verbatim and only the last block is
stripped of its trailing zero run.  The code instead compares each block BY
VALUE against `modified_blocks.last().unwrap()`: when an earlier block is
byte-identical to the last one, the loop strips that earlier block, writes
the truncated prefix and breaks, omitting every following block.  At the
two-identical-block input `[[1, 0], [1, 0]]` the code writes `[1]`, while
the spec's positional policy writes `[1, 0, 1]`. -/
theorem C2_write_loop_value_bug :
    writeBlocks [[1, 0], [1, 0]] = [1] ∧ writeBlocksSpec [[1, 0], [1, 0]] = [1, 0, 1] := by
  decide

/-- C3 (amended): a call to `encrypt_block` or `decrypt_block` with a buffer
whose length differs from the cipher's block width panics — the GenericArray
`clone_from_slice` length assertion aborts, modelled as `none` — rather than
returning a `BlockSizeMismatch` error value; no such error value exists in
the code. -/
theorem C3_block_size_mismatch_panics (fi : Fishers) (b : Bytes)
    (hb : b.length ≠ fi.cipher.width) :
    fi.encrypt_block b = none ∧ fi.decrypt_block b = none :=
  ⟨encrypt_block_panic fi b hb, decrypt_block_panic fi b hb⟩

/-- C3 witness: a 1-byte buffer against the width-8 Blowfish variant. -/
theorem C3_block_size_mismatch_panics_witness :
    (Fishers.blowfish (idCipher 8)).encrypt_block [0] = none ∧
    (Fishers.blowfish (idCipher 8)).decrypt_block [0] = none :=
  C3_block_size_mismatch_panics (Fishers.blowfish (idCipher 8)) [0] (by decide)

/-- C3 counterexample to the claim as stated: at a length-1 buffer the
width-8 Blowfish variant's `encrypt_block` panics (`none`); it does not
return any error value, in particular no `BlockSizeMismatch`. -/
theorem C3_counterexample :
    (Fishers.blowfish (idCipher 8)).encrypt_block [0] = none ∧
    ∀ e : String, (Fishers.blowfish (idCipher 8)).encrypt_block [0] ≠
      some (([0] : Bytes), Except.error e) := by
  constructor
  · decide
  · intro e h
    rw [encrypt_block_panic _ _ (by decide)] at h
    exact Option.noConfusion h

/-- C10: on an empty file the transform succeeds in both directions and
writes nothing: the read loop breaks on the zero-byte read with no blocks
collected, and the write loop over zero blocks never runs (so the
`last().unwrap()` in its body is never evaluated); the file is truncated and
left empty. -/
theorem C10_empty_file (self : Fisher) : self.modify_file [] = some (Except.ok []) := by
  unfold Fisher.modify_file
  rw [readTransformLoop, dif_pos (Or.inl rfl)]
  rfl

/-- C1 (amended): for every cipher satisfying the external-library interface
at any positive block width, encrypting a file's content and then decrypting
the written result with the same cipher restores the content exactly,
provided (i) the content's final block — partial or full — does not end in a
zero byte (this is the claim's own proviso, covering the full-block boundary
case the spec flags), (ii) no transformed block before the positionally-last
one is byte-identical to the last (otherwise the write loop's value-equality
test truncates early and drops blocks — the counterexample), and (iii) the
last transformed block is not entirely zero (otherwise the trailing-zero
strip deletes it whole and the decrypt pass sees one block fewer). -/
theorem C1_round_trip (fi : Fishers) (w : Nat) (hww : fi.cipher.width = w) (C : Bytes)
    (hw : 0 < w)
    (hlast : C.getLast? ≠ some 0)
    (hdup : ∀ b ∈ ((readBlocks w C).map fi.cipher.encrypt).dropLast,
      some b ≠ ((readBlocks w C).map fi.cipher.encrypt).getLast?)
    (hzero : ((readBlocks w C).map fi.cipher.encrypt).getLast? ≠
      some (List.replicate w 0)) :
    ∃ D : Bytes,
      (Fisher.mk w true fi).modify_file C = some (Except.ok D) ∧
      (Fisher.mk w false fi).modify_file D = some (Except.ok C) := by
  subst hww
  refine ⟨writeBlocks ((readBlocks fi.cipher.width C).map fi.cipher.encrypt), ?_, ?_⟩
  · rw [modify_file_ok (Fisher.mk fi.cipher.width true fi) rfl C]
    exact rfl
  · rw [modify_file_ok (Fisher.mk fi.cipher.width false fi) rfl _]
    have hrt := pure_round_trip fi.cipher (Nat.pos_iff_ne_zero.mp hw) C hlast hdup hzero
    exact congrArg (fun x => some (Except.ok x)) hrt

/-- C1 witness: Blowfish-shaped width 8 with the identity-interface cipher on
content [1, 2, 3] (single partial block ending in a nonzero byte). -/
theorem C1_round_trip_witness :
    ∃ D : Bytes,
      (Fisher.mk 8 true (Fishers.blowfish (idCipher 8))).modify_file [1, 2, 3] =
        some (Except.ok D) ∧
      (Fisher.mk 8 false (Fishers.blowfish (idCipher 8))).modify_file D =
        some (Except.ok [1, 2, 3]) :=
  C1_round_trip (Fishers.blowfish (idCipher 8)) 8 rfl [1, 2, 3] (by decide) (by decide)
    (by
      rw [readBlocks_eight_cons]
      simp [readBlocks_nil])
    (by
      rw [readBlocks_eight_cons]
      simp [readBlocks_nil, Fishers.cipher, idCipher])

/-- C1 counterexample to the claim as stated: the 16-byte content made of two
identical full blocks ends in a nonzero byte (its last partial block carries
no trailing zeros — indeed there is no partial block), yet with the width-8
identity-interface cipher the encrypt pass writes only 8 bytes (the write
loop's value-equality test fires on the FIRST block and drops the second) and
the decrypt pass returns those 8 bytes, not the original 16: the round trip
loses half the file.  The same loss occurs for every cipher of the interface,
since equal plaintext blocks always map to equal transformed blocks. -/
theorem C1_counterexample :
    (Fisher.mk 8 true (Fishers.blowfish (idCipher 8))).modify_file
        [1, 2, 3, 4, 5, 6, 7, 8, 1, 2, 3, 4, 5, 6, 7, 8] =
      some (Except.ok [1, 2, 3, 4, 5, 6, 7, 8]) ∧
    (Fisher.mk 8 false (Fishers.blowfish (idCipher 8))).modify_file
        [1, 2, 3, 4, 5, 6, 7, 8] =
      some (Except.ok [1, 2, 3, 4, 5, 6, 7, 8]) ∧
    ([1, 2, 3, 4, 5, 6, 7, 8] : Bytes) ≠ [1, 2, 3, 4, 5, 6, 7, 8, 1, 2, 3, 4, 5, 6, 7, 8] := by
  refine ⟨?_, ?_, by decide⟩
  · rw [modify_file_ok _ rfl _]
    rw [readBlocks_eight_cons]
    norm_num
    rw [readBlocks_eight_cons]
    norm_num [readBlocks_nil, Fishers.cipher, idCipher, writeBlocks, writeLoop, stripPadding,
      countTrailingZeros]
  · rw [modify_file_ok _ rfl _]
    rw [readBlocks_eight_cons]
    norm_num [readBlocks_nil, Fishers.cipher, idCipher, writeBlocks, writeLoop, stripPadding,
      countTrailingZeros]

/-- C9: for every cipher variant, on a buffer of the cipher's width both
`encrypt_block` and `decrypt_block` return `Ok(true)` with the transformed
buffer — never `Ok(false)`, never an error — and consequently `modify_file`
(whose read loop only ever hands the transforms buffers of exactly
`block_size` bytes) never reaches its "Failed to encrypt or decrypt block"
branch: it succeeds on every file content. -/
theorem C9_block_ops_ok (fi : Fishers) (b : Bytes) (hb : b.length = fi.cipher.width)
    (crypt : Bool) (C : Bytes) :
    fi.encrypt_block b = some (fi.cipher.encrypt b, Except.ok true) ∧
    fi.decrypt_block b = some (fi.cipher.decrypt b, Except.ok true) ∧
    ∃ out : Bytes, (Fisher.mk fi.cipher.width crypt fi).modify_file C = some (Except.ok out) :=
  ⟨encrypt_block_ok fi b hb, decrypt_block_ok fi b hb,
    ⟨_, modify_file_ok (Fisher.mk fi.cipher.width crypt fi) rfl C⟩⟩

/-- C9 witness: the width-16 Twofish variant on a zero buffer and the
three-byte file [5, 6, 7]. -/
theorem C9_block_ops_ok_witness :
    (Fishers.twofish (idCipher 16)).encrypt_block (List.replicate 16 0) =
      some (List.replicate 16 0, Except.ok true) ∧
    (Fishers.twofish (idCipher 16)).decrypt_block (List.replicate 16 0) =
      some (List.replicate 16 0, Except.ok true) ∧
    ∃ out : Bytes,
      (Fisher.mk 16 true (Fishers.twofish (idCipher 16))).modify_file [5, 6, 7] =
        some (Except.ok out) :=
  C9_block_ops_ok (Fishers.twofish (idCipher 16)) (List.replicate 16 0) (by decide) true [5, 6, 7]

/-- C7: the read phase chunks the file into blocks of exactly Block Width
bytes: every produced block has length `w`; concatenating the blocks gives
the content followed by exactly the zero-padding of the final short chunk
(`(w - len % w) % w` zero bytes — none when the length is an exact multiple);
the zero-byte read on empty input produces no block at all; and a file whose
length is an exact multiple of `w` yields exactly `len / w` blocks, with no
extra padding block. -/
theorem C7_read_phase (w : Nat) (hw : 0 < w) (l : Bytes) :
    (∀ b ∈ readBlocks w l, b.length = w) ∧
    (readBlocks w l).flatten = l ++ List.replicate ((w - l.length % w) % w) 0 ∧
    readBlocks w [] = [] ∧
    (l.length % w = 0 → (readBlocks w l).length = l.length / w) := by
  have hw' : w ≠ 0 := Nat.pos_iff_ne_zero.mp hw
  exact ⟨readBlocks_mem_length w l, readBlocks_flatten_pad w hw' l, readBlocks_nil w,
    fun h => readBlocks_length_exact w hw' l h⟩

/-- C7 witness: width 8 on an exactly-one-block file. -/
theorem C7_read_phase_witness :
    (∀ b ∈ readBlocks 8 [1, 2, 3, 4, 5, 6, 7, 8], b.length = 8) ∧
    (readBlocks 8 [1, 2, 3, 4, 5, 6, 7, 8]).flatten =
      [1, 2, 3, 4, 5, 6, 7, 8] ++
        List.replicate ((8 - [1, 2, 3, 4, 5, 6, 7, 8].length % 8) % 8) 0 ∧
    readBlocks 8 [] = [] ∧
    ([1, 2, 3, 4, 5, 6, 7, 8].length % 8 = 0 →
      (readBlocks 8 [1, 2, 3, 4, 5, 6, 7, 8]).length = [1, 2, 3, 4, 5, 6, 7, 8].length / 8) :=
  C7_read_phase 8 (by decide) [1, 2, 3, 4, 5, 6, 7, 8]

/-- C4: for every literal passphrase p (one not naming a file), the
Threefish-1024 key derivation (alg 2, block size 128) succeeds and hands the
`Threefish1024::new` constructor exactly the 128-byte key
`H512(p) ++ H512(H512(p))`: the zeroed 128-byte array with the digest copied
into its first half and the digest-of-the-digest into its second half is the
plain concatenation of the two 64-byte digests. -/
theorem C4_threefish1024_key (fs : FileSys) (H : HashFns) (lib : CipherLib) (p : Bytes)
    (hfile : fs.isFile p = false)
    (hlen : ∀ b : Bytes, (H.sha512 b).length = 64) :
    generate_key fs H lib 2 128 p =
      some (Except.ok (Fishers.threefish1024
        (lib.threefish1024New (H.sha512 p ++ H.sha512 (H.sha512 p))))) := by
  have h1 : (H.sha512 p).length = 64 := hlen p
  have h2 : (H.sha512 (H.sha512 p)).length = 64 := hlen (H.sha512 p)
  unfold generate_key resolvePassphrase
  rw [hfile]
  simp only [Bool.false_eq_true, if_false]
  unfold generate_key_body
  norm_num [cloneIntoRange, h1, h2]
  have hdrop : (H.sha512 p ++ List.replicate 64 0).drop 128 = [] := by
    apply List.drop_eq_nil_of_le
    simp [h1]
  rw [hdrop]
  simp [keyFromSlice, h1, h2]

/-- C4 witness: constant 64-byte digests on the one-byte passphrase [120]. -/
theorem C4_threefish1024_key_witness :
    generate_key noFileFS constHash constLib 2 128 [120] =
      some (Except.ok (Fishers.threefish1024
        (constLib.threefish1024New (List.replicate 64 1 ++ List.replicate 64 1)))) :=
  C4_threefish1024_key noFileFS constHash constLib [120] rfl (fun _ => by simp [constHash])

/-- C5: requesting the Threefish algorithm with a block width outside
{32, 64, 128} makes key derivation fail with the "Invalid block size" error
(the spec's InvalidBlockSize), in the enum.rs five-algorithm `generate_key`,
in the fish.rs Threefish-only `generate_key`, and in `Fisher::new`, which
propagates it: no `Fisher` instance is constructed, so the failure precedes
any call to `modify_file` and no file is touched. -/
theorem C5_invalid_block_size (fs : FileSys) (H : HashFns) (lib : CipherLib)
    (crypt : Bool) (bs : Nat) (p q : Bytes)
    (hres : resolvePassphrase fs p = Except.ok q)
    (h32 : bs ≠ 32) (h64 : bs ≠ 64) (h128 : bs ≠ 128) :
    generate_key fs H lib 2 bs p = some (Except.error "Invalid block size") ∧
    fish_generate_key fs H lib bs p = some (Except.error "Invalid block size") ∧
    Fisher.new fs H lib crypt p bs = some (Except.error "Invalid block size") := by
  have hgk : fish_generate_key fs H lib bs p = some (Except.error "Invalid block size") := by
    unfold fish_generate_key
    rw [hres]
    unfold fish_generate_key_body
    simp [h32, h64, h128]
  refine ⟨?_, hgk, ?_⟩
  · unfold generate_key
    rw [hres]
    unfold generate_key_body
    simp [h32, h64, h128]
  · unfold Fisher.new
    rw [hgk]

/-- C5 witness: the spec's example width 48 with a literal passphrase. -/
theorem C5_invalid_block_size_witness :
    generate_key noFileFS constHash constLib 2 48 [1] =
      some (Except.error "Invalid block size") ∧
    fish_generate_key noFileFS constHash constLib 48 [1] =
      some (Except.error "Invalid block size") ∧
    Fisher.new noFileFS constHash constLib true [1] 48 =
      some (Except.error "Invalid block size") :=
  C5_invalid_block_size noFileFS constHash constLib true 48 [1] [1] rfl
    (by decide) (by decide) (by decide)

/-- C6: when the passphrase argument names an existing regular file, key
derivation substitutes the file's full contents for the passphrase before any
hashing — so deriving from the path equals deriving directly from the
contained string (itself not naming a file) — and when the file exists but
cannot be read, derivation fails with the read's Io error. -/
theorem C6_passphrase_file (fs : FileSys) (H : HashFns) (lib : CipherLib)
    (alg bs : Nat) (p c : Bytes) (e : String)
    (hp : fs.isFile p = true) :
    (fs.readToString p = Except.ok c → fs.isFile c = false →
      generate_key fs H lib alg bs p = generate_key fs H lib alg bs c) ∧
    (fs.readToString p = Except.error e →
      generate_key fs H lib alg bs p = some (Except.error e)) := by
  constructor
  · intro hread hc
    unfold generate_key resolvePassphrase
    rw [hp, hread, hc]
    simp
  · intro hread
    unfold generate_key resolvePassphrase
    rw [hp, hread]
    simp

/-- C6 witness: the one-file filesystem (path [7] holding contents [42]). -/
theorem C6_passphrase_file_witness :
    (oneFileFS.readToString [7] = Except.ok [42] → oneFileFS.isFile [42] = false →
      generate_key oneFileFS constHash constLib 0 8 [7] =
        generate_key oneFileFS constHash constLib 0 8 [42]) ∧
    (oneFileFS.readToString [7] = Except.error "io" →
      generate_key oneFileFS constHash constLib 0 8 [7] = some (Except.error "io")) :=
  C6_passphrase_file oneFileFS constHash constLib 0 8 [7] [42] "io" (by decide)

/-- C8: for every literal passphrase, the Blowfish key derivation (alg 0)
hashes the passphrase with the 512-bit hash and hands `Blowfish::new` exactly
the first 56 bytes (448 bits) of the 64-byte digest. -/
theorem C8_blowfish_key (fs : FileSys) (H : HashFns) (lib : CipherLib) (bs : Nat) (p : Bytes)
    (hfile : fs.isFile p = false)
    (hlen : (H.sha512 p).length = 64) :
    generate_key fs H lib 0 bs p =
      some (Except.ok (Fishers.blowfish (lib.blowfishNew ((H.sha512 p).take 56)))) ∧
    ((H.sha512 p).take 56).length = 56 := by
  have h56 : ((H.sha512 p).take 56).length = 56 := by
    simp [List.length_take, hlen]
  refine ⟨?_, h56⟩
  unfold generate_key resolvePassphrase
  rw [hfile]
  simp only [Bool.false_eq_true, if_false]
  unfold generate_key_body
  simp [keyFromSlice, h56]

/-- C8 witness: constant 64-byte digest on the one-byte passphrase [120]. -/
theorem C8_blowfish_key_witness :
    generate_key noFileFS constHash constLib 0 8 [120] =
      some (Except.ok (Fishers.blowfish
        (constLib.blowfishNew ((List.replicate 64 1).take 56)))) ∧
    ((List.replicate 64 (1 : Nat)).take 56).length = 56 :=
  C8_blowfish_key noFileFS constHash constLib 8 [120] rfl (by simp [constHash])
